import Mathlib

/-!
Formal model of the data-preparation and aggregation pipeline of `app.py`
(Streamlit dashboard "Trader Performance & Market Sentiment").

The dashboard loads two CSV tables (`final_merged_dataset.csv`, the trade
records, and `trader_clusters.csv`, the per-trader profiles), left-joins the
profile's `cluster` column into the trade table on `account` (line 28), and
renders views computed by pandas one-liners (lines 52-170).  Each pandas
operation is embedded here as a pure function on lists of rows; machine floats
are modelled by `ℚ`, pandas NaN results by `Option`.
-/

namespace TradeDashboard

/-- One row of `final_merged_dataset.csv` before the join.  The columns used by
the dashboard are `account`, `side`, `size_usd`, `closed_pnl`, `win` (0/1 flag,
modelled as `Bool`) and `classification` (the market-sentiment label). -/
structure TradeRow where
  account : String
  side : String
  size_usd : ℚ
  closed_pnl : ℚ
  win : Bool
  classification : String
deriving DecidableEq, Repr

/-- One row of `trader_clusters.csv`: per-trader profile with a cluster id and
aggregate statistics. -/
structure ProfileRow where
  account : String
  cluster : Int
  total_trades : Nat
  win_rate : ℚ
  total_pnl : ℚ
deriving DecidableEq, Repr

/-- One row of the joined trade table produced by line 28
(`merged.merge(trader_features[['account','cluster']], on='account', how='left')`).
The left join keeps every trade row; a trade whose account has no profile gets a
null `cluster`, modelled as `Option Int`. -/
structure MergedRow where
  account : String
  side : String
  size_usd : ℚ
  closed_pnl : ℚ
  win : Bool
  classification : String
  cluster : Option Int
deriving DecidableEq, Repr

/-! ### Schema-level model of `load_data` (lines 24-29)

`load_data` performs exactly three operations that can fail: two `pd.read_csv`
calls (which raise if the file is missing or unreadable) and the column
selection / merge (which raise a `KeyError` if a referenced column is absent).
No other column is touched inside `load_data`, so no other absence can be
detected there.  A table is modelled by its column list. -/

/-- Column schema of a loaded CSV table. -/
structure RawTable where
  cols : List String
deriving DecidableEq, Repr

/-- The ways `load_data` itself can fail. -/
inductive LoadError
  | fileMissing : String → LoadError
  | missingColumn : String → LoadError
  | mergeKeyMissing : LoadError
deriving DecidableEq, Repr

/-- Model of `pd.read_csv`: fails iff the source file is missing/unreadable
(modelled by `none`). -/
def readCsv (src : Option RawTable) (file : String) : Except LoadError RawTable :=
  match src with
  | none => .error (.fileMissing file)
  | some t => .ok t

/-- Model of `df[[c1, ..., ck]]`: raises a `KeyError` iff one of the requested
columns is absent, otherwise keeps exactly the requested columns. -/
def selectColumns (t : RawTable) (cs : List String) : Except LoadError RawTable :=
  match cs.find? (fun c => decide (c ∉ t.cols)) with
  | some c => .error (.missingColumn c)
  | none => .ok ⟨cs⟩

/-- Model of `left.merge(right, on=key, how='left')` at schema level: raises iff
the merge key is absent from either operand; the output schema is the left
columns followed by the non-key right columns. -/
def mergeLeftOn (left right : RawTable) (key : String) : Except LoadError RawTable :=
  if key ∈ left.cols ∧ key ∈ right.cols then
    .ok ⟨left.cols ++ right.cols.filter (fun c => decide (¬ c = key))⟩
  else .error .mergeKeyMissing

/-- Schema-level model of `load_data` (lines 24-29): read both CSVs, project the
profile table to `['account','cluster']`, left-merge into the trade table on
`account`, and return both tables.  Mirrors the program order of lines 26-29. -/
def load_data_schema (mergedCsv traderClustersCsv : Option RawTable) :
    Except LoadError (RawTable × RawTable) :=
  match readCsv mergedCsv "final_merged_dataset.csv" with
  | .error e => .error e
  | .ok merged =>
    match readCsv traderClustersCsv "trader_clusters.csv" with
    | .error e => .error e
    | .ok tf =>
      match selectColumns tf ["account", "cluster"] with
      | .error e => .error e
      | .ok proj =>
        match mergeLeftOn merged proj "account" with
        | .error e => .error e
        | .ok joined => .ok (joined, tf)

/-! ### Value-level model of the join in `load_data` (line 28) -/

/-- Attach a cluster value to a trade row, giving a row of the joined table. -/
def mkMerged (t : TradeRow) (c : Option Int) : MergedRow :=
  ⟨t.account, t.side, t.size_usd, t.closed_pnl, t.win, t.classification, c⟩

/-- Value-level model of the left join of line 28: every trade row is kept in
order; it is repeated once per matching profile row (pandas semantics when the
right key is not unique), and kept once with a null cluster when no profile
matches. -/
def leftMergeCluster (trades : List TradeRow) (profiles : List ProfileRow) :
    List MergedRow :=
  trades.flatMap (fun t =>
    match profiles.filter (fun p => decide (p.account = t.account)) with
    | [] => [mkMerged t none]
    | ms => ms.map (fun p => mkMerged t (some p.cluster)))

/-! ### Generic helpers shared by the pandas operations -/

/-- Arithmetic mean of a nonempty numeric column (`Series.mean` on nonempty
input). -/
def groupMean (xs : List ℚ) : ℚ := xs.sum / (xs.length : ℚ)

/-- `Series.mean`: NaN (here `none`) on an empty series, the arithmetic mean
otherwise. -/
def seriesMean (xs : List ℚ) : Option ℚ :=
  if xs.isEmpty then none else some (groupMean xs)

/-- Numeric value of the 0/1 `win` column of a joined trade row. -/
def winVal (r : MergedRow) : ℚ := if r.win then 1 else 0

/-- Collapse each run of equal adjacent values to a single value.  On a sorted
list this is exactly pandas `unique` (duplicate removal); it is used both for
`groupby` keys and for dropping duplicate quantile edges. -/
def dedupRuns {α : Type} [DecidableEq α] : List α → List α
  | [] => []
  | [a] => [a]
  | a :: b :: rest =>
    if a = b then dedupRuns (b :: rest) else a :: dedupRuns (b :: rest)

/-- Sorted distinct keys of a column, as produced by `groupby(key)` with its
default `sort=True`: group labels appear in ascending order, once each. -/
def sortedKeys {α : Type} [LinearOrder α] (xs : List α) : List α :=
  dedupRuns (xs.insertionSort (· ≤ ·))

/-! ### The derived views (lines 52-170) -/

/-- Line 52: `filtered_merged = merged[merged['classification'].isin(selected_sentiments)]`.
Only the sentiment filter `S` is applied to the trade table. -/
def filtered_merged (merged : List MergedRow) (S : List String) : List MergedRow :=
  merged.filter (fun r => decide (r.classification ∈ S))

/-- Line 53: `filtered_clusters = trader_features[trader_features['cluster'].isin(selected_clusters)]`. -/
def filtered_clusters (tf : List ProfileRow) (C : List Int) : List ProfileRow :=
  tf.filter (fun p => decide (p.cluster ∈ C))

/-- Line 61: `total_trades = filtered_merged.shape[0]`. -/
def total_trades (fm : List MergedRow) : Nat := fm.length

/-- Line 62: `total_pnl = filtered_merged['closed_pnl'].sum()` (pandas sum of an
empty column is 0). -/
def total_pnl (fm : List MergedRow) : ℚ := (fm.map MergedRow.closed_pnl).sum

/-- Line 63: `overall_win_rate = filtered_merged['win'].mean() * 100`; the mean
of an empty column is NaN and NaN propagates through `* 100`. -/
def overall_win_rate (fm : List MergedRow) : Option ℚ :=
  (seriesMean (fm.map winVal)).map (· * 100)

/-- Line 102: `win_rate = filtered_merged.groupby('classification')['win'].mean() * 100`.
Group keys are the distinct classifications in ascending order; every group is
nonempty by construction. -/
def win_rate (fm : List MergedRow) : List (String × ℚ) :=
  (sortedKeys (fm.map MergedRow.classification)).map (fun s =>
    (s, groupMean ((fm.filter (fun r => decide (r.classification = s))).map winVal) * 100))

/-- Line 109: `side_win = filtered_merged.groupby('side')['win'].mean() * 100`. -/
def side_win (fm : List MergedRow) : List (String × ℚ) :=
  (sortedKeys (fm.map MergedRow.side)).map (fun s =>
    (s, groupMean ((fm.filter (fun r => decide (r.side = s))).map winVal) * 100))

/-! ### Quantile bucketing (`pd.qcut`, line 116)

`pd.qcut(x, 4, duplicates='drop')` computes the linear-interpolation quantiles
of `x` at 0, 1/4, 1/2, 3/4, 1, drops duplicate edges, and assigns each value to
the interval `(e_(i-1), e_i]` it falls in, with values equal to the lowest edge
forced into the first interval (`include_lowest`).  A value that falls in no
interval (only possible when all edges collapse to a single edge) gets NaN. -/

/-- Linear-interpolation quantile of a sorted list, pandas
`Series.quantile(p, interpolation='linear')` at `p = num/den` with
`0 ≤ num ≤ den`: position `h = p*(n-1)`, value
`v_⌊h⌋ + (h-⌊h⌋) * (v_(⌊h⌋+1) - v_⌊h⌋)`.  The index `⌊h⌋` and the fractional
part `h-⌊h⌋` are computed exactly by natural division `num*(n-1) / den` and
remainder, which agrees with the floor since `h ≥ 0`. -/
def quantileSorted (v : List ℚ) (num den : ℕ) : ℚ :=
  let pos := num * (v.length - 1)
  let i : ℕ := pos / den
  let g : ℚ := ((pos % den : ℕ) : ℚ) / (den : ℚ)
  let lo := v.getD i 0
  let hi := v.getD (i + 1) lo
  lo + g * (hi - lo)

/-- The five raw quantile edges that `pd.qcut(x, 4)` computes
(`np.linspace(0, 1, 5)` quantiles, i.e. `p = 0/4, 1/4, 2/4, 3/4, 4/4`, of the
sorted data). -/
def qcutRawEdges (xs : List ℚ) : List ℚ :=
  let s := xs.insertionSort (· ≤ ·)
  [quantileSorted s 0 4, quantileSorted s 1 4, quantileSorted s 2 4,
   quantileSorted s 3 4, quantileSorted s 4 4]

/-- The `duplicates` keyword of `pd.qcut`. -/
inductive Duplicates
  | raiseDup
  | dropDup
deriving DecidableEq, Repr

/-- Edge deduplication of pandas `_bins_to_cuts`: with `duplicates='raise'` a
duplicate edge raises `ValueError: Bin edges must be unique`; with
`duplicates='drop'` the duplicate edges are dropped. -/
def binsToEdges (bins : List ℚ) (dup : Duplicates) : Except String (List ℚ) :=
  let ub := dedupRuns bins
  if ub.length < bins.length ∧ bins.length ≠ 2 then
    match dup with
    | .raiseDup => .error "Bin edges must be unique"
    | .dropDup => .ok ub
  else .ok bins

/-- Leftmost insertion position of `x` in the sorted edge list
(`np.searchsorted(..., side='left')`): the number of edges strictly below
`x`. -/
def searchSortedLeft (edges : List ℚ) (x : ℚ) : Nat :=
  edges.countP (fun e => decide (e < x))

/-- Interval assignment of `_bins_to_cuts` (with `right=True`,
`include_lowest=True`): a value equal to the lowest edge is forced into the
first interval; an id of 0 or of `edges.length` means the value lies in no
interval and becomes NaN. -/
def assignBin (edges : List ℚ) (x : ℚ) : Option Nat :=
  let i := if edges.head? = some x then 1 else searchSortedLeft edges x
  if i = 0 ∨ i = edges.length then none else some (i - 1)

/-- Number of intervals described by an edge list. -/
def numBins (edges : List ℚ) : Nat := edges.length - 1

/-- Line 116: `filtered_merged['size_bin'] = pd.qcut(filtered_merged['size_usd'], 4, duplicates='drop')`.
The result is the filtered trade table extended with the (nullable) bin column;
the column assignment writes to the filtered copy, never to the source table. -/
def size_bin (fm : List MergedRow) : List (MergedRow × Option Nat) :=
  match binsToEdges (qcutRawEdges (fm.map MergedRow.size_usd)) .dropDup with
  | .error _ => []
  | .ok edges => fm.map (fun r => (r, assignBin edges r.size_usd))

/-- Line 117: `size_win = filtered_merged.groupby('size_bin')['win'].mean() * 100`.
`size_bin` is categorical, so with the default `observed=False` every interval
appears as a group; a group with no members yields NaN. -/
def size_win (fm : List MergedRow) : List (Nat × Option ℚ) :=
  match binsToEdges (qcutRawEdges (fm.map MergedRow.size_usd)) .dropDup with
  | .error _ => []
  | .ok edges =>
    (List.range (numBins edges)).map (fun b =>
      let g := fm.filter (fun r => decide (assignBin edges r.size_usd = some b))
      (b, (seriesMean (g.map winVal)).map (· * 100)))

/-- Row of line 157's `filtered_clusters.groupby('cluster').mean(numeric_only=True)`:
the mean of every numeric profile column per cluster group. -/
structure ClusterSummaryRow where
  cluster : Int
  total_trades : ℚ
  win_rate : ℚ
  total_pnl : ℚ
deriving DecidableEq, Repr

/-- Line 157: cluster summary means over the cluster-filtered profile table. -/
def cluster_summary (fc : List ProfileRow) : List ClusterSummaryRow :=
  (sortedKeys (fc.map ProfileRow.cluster)).map (fun c =>
    let g := fc.filter (fun p => decide (p.cluster = c))
    ⟨c, groupMean (g.map (fun p => (p.total_trades : ℚ))),
        groupMean (g.map ProfileRow.win_rate),
        groupMean (g.map ProfileRow.total_pnl)⟩)

/-- The stable descending top-n selection `df.nlargest(n, 'total_pnl')`
(default `keep='first'`): rows sorted by descending `total_pnl`, ties kept in
original row order, then the first `n` taken.  `insertionSort` with the total
preorder below is a stable sort, like the mergesort pandas uses. -/
def nlargestPnl (n : Nat) (rows : List ProfileRow) : List ProfileRow :=
  (rows.insertionSort (fun a b => b.total_pnl ≤ a.total_pnl)).take n

/-- Line 161: `top_traders = trader_features.groupby('cluster').apply(lambda x: x.nlargest(5,'total_pnl')).reset_index(drop=True)`.
The groupby runs over the full, unfiltered profile table, groups in ascending
cluster order, and the per-group top-5 lists are concatenated. -/
def top_traders (tf : List ProfileRow) : List ProfileRow :=
  (sortedKeys (tf.map ProfileRow.cluster)).flatMap (fun c =>
    nlargestPnl 5 (tf.filter (fun p => decide (p.cluster = c))))

/-! ### Heatmap (lines 168-170) -/

/-- The rows `pivot_table(index='cluster', ...)` actually groups: pandas
`groupby` drops every row whose grouping key is NaN, so only trades with a
non-null cluster survive, keyed by that cluster. -/
def pivotRows (merged : List MergedRow) : List (Int × MergedRow) :=
  merged.filterMap (fun r => r.cluster.map (fun c => (c, r)))

/-- One cell of the heatmap grid: the mean of `win`, times 100, over the pivot
rows with the exact (cluster, classification) pair — NaN when the pair has no
observations. -/
def heatmapCellValue (base : List (Int × MergedRow)) (c : Int) (s : String) :
    Option ℚ :=
  (seriesMean (((base.filter
    (fun p => decide (p.1 = c ∧ p.2.classification = s))).map Prod.snd).map winVal)).map
    (· * 100)

/-- Heatmap grid built from the surviving pivot rows: ascending cluster row
index, ascending classification columns, cells as in `heatmapCellValue`. -/
def heatmapOfBase (base : List (Int × MergedRow)) :
    List (Int × List (String × Option ℚ)) :=
  (sortedKeys (base.map Prod.fst)).map (fun c =>
    (c, (sortedKeys (base.map (fun p => p.2.classification))).map (fun s =>
      (s, heatmapCellValue base c s))))

/-- Lines 168-170: `heatmap_data = merged.pivot_table(index='cluster', columns='classification', values='win', aggfunc='mean') * 100`
computed over the full, unfiltered joined table. -/
def heatmap_data (merged : List MergedRow) : List (Int × List (String × Option ℚ)) :=
  heatmapOfBase (pivotRows merged)

/-- Cell lookup in the heatmap grid: `none` when the cluster row or the
classification column is absent, or when the cell itself is NaN. -/
def heatmapCell (merged : List MergedRow) (c : Int) (s : String) : Option ℚ :=
  (((heatmap_data merged).lookup c).bind (fun row => row.lookup s)).join

/-! ### The whole recomputation (state-passing form)

The module-level tables `merged` and `trader_features` (line 31) are the only
state; every view is recomputed from them on each filter change.  Boolean-mask
indexing (lines 52-53) returns a fresh copy, and the one in-place column write
of the pipeline (line 116) targets that copy, so the computation returns the
source tables unchanged. -/

/-- The two tables returned by `load_data` and held for the process lifetime. -/
structure Sources where
  merged : List MergedRow
  trader_features : List ProfileRow
deriving DecidableEq, Repr

/-- All derived views of one recomputation. -/
structure Views where
  filtered_merged : List MergedRow
  filtered_clusters : List ProfileRow
  total_trades : Nat
  total_pnl : ℚ
  overall_win_rate : Option ℚ
  win_rate : List (String × ℚ)
  side_win : List (String × ℚ)
  size_bin : List (MergedRow × Option Nat)
  size_win : List (Nat × Option ℚ)
  cluster_summary : List ClusterSummaryRow
  top_traders : List ProfileRow
  heatmap_data : List (Int × List (String × Option ℚ))
deriving DecidableEq, Repr

/-- One full recomputation of every view for a filter selection `(S, C)`,
threading the source tables through and returning them alongside the views
(program order of lines 52-170). -/
def computeViews (src : Sources) (S : List String) (C : List Int) :
    Views × Sources :=
  let fm := filtered_merged src.merged S
  let fc := filtered_clusters src.trader_features C
  (⟨fm, fc, total_trades fm, total_pnl fm, overall_win_rate fm, win_rate fm,
    side_win fm, size_bin fm, size_win fm, cluster_summary fc,
    top_traders src.trader_features, heatmap_data src.merged⟩, src)

/-! ### Concrete example data (the scenario of spec §8, plus degenerate inputs) -/

/-- Example trade rows: account A wins under "Fear", account B loses under
"Greed". -/
def tA : TradeRow := ⟨"A", "buy", 50, 100, true, "Fear"⟩

/-- Second example trade row. -/
def tB : TradeRow := ⟨"B", "sell", 80, -20, false, "Greed"⟩

/-- Profile of account A (cluster 0). -/
def pA : ProfileRow := ⟨"A", 0, 10, 60, 500⟩

/-- Profile of account B (cluster 1). -/
def pB : ProfileRow := ⟨"B", 1, 5, 30, -200⟩

/-- Example trade table. -/
def exTrades : List TradeRow := [tA, tB]

/-- Example profile table. -/
def exProfiles : List ProfileRow := [pA, pB]

/-- Joined row of `tA`. -/
def mA : MergedRow := ⟨"A", "buy", 50, 100, true, "Fear", some 0⟩

/-- Joined row of `tB`. -/
def mB : MergedRow := ⟨"B", "sell", 80, -20, false, "Greed", some 1⟩

/-- A joined trade row whose account has no profile: null cluster. -/
def mC : MergedRow := ⟨"C", "buy", 10, 5, true, "Fear", none⟩

/-- Example joined trade table. -/
def exMerged : List MergedRow := [mA, mB]

/-- Example source-table pair. -/
def exSrc : Sources := ⟨exMerged, exProfiles⟩

/-- Example source-table pair containing an unmatched (null-cluster) trade. -/
def exSrcNull : Sources := ⟨[mA, mB, mC], exProfiles⟩

/-- A joined trade row with trade size 10 and the given pnl. -/
def eqRow (i : ℚ) : MergedRow := ⟨"A", "buy", 10, i, true, "Fear", some 0⟩

/-- Four trades that all have the same `size_usd`: the degenerate input for the
quantile bucketing. -/
def eqRows : List MergedRow := [eqRow 1, eqRow 2, eqRow 3, eqRow 4]

/-- Schema of a trade CSV that is missing the required `classification`
column (all other required columns present). -/
def noClassTable : RawTable := ⟨["account", "side", "size_usd", "closed_pnl", "win"]⟩

/-- Schema of a complete profile CSV. -/
def fullProfileTable : RawTable :=
  ⟨["account", "cluster", "total_trades", "win_rate", "total_pnl"]⟩

/-! ### Helper lemmas: `dedupRuns` and sorted lists -/

theorem mem_dedupRuns {α : Type} [DecidableEq α] (l : List α) (x : α) :
    x ∈ dedupRuns l ↔ x ∈ l := by
  induction l with
  | nil => simp [dedupRuns]
  | cons a t ih =>
    cases t with
    | nil => simp [dedupRuns]
    | cons b rest =>
      by_cases hab : a = b
      · subst hab
        rw [show dedupRuns (a :: a :: rest) = dedupRuns (a :: rest) by
          simp [dedupRuns]]
        rw [ih]
        simp [List.mem_cons]
      · rw [show dedupRuns (a :: b :: rest) = a :: dedupRuns (b :: rest) by
          simp [dedupRuns, hab]]
        simp [List.mem_cons, ih]

theorem dedupRuns_head? {α : Type} [DecidableEq α] (l : List α) (a : α)
    (h : l.head? = some a) : (dedupRuns l).head? = some a := by
  induction l with
  | nil => cases h
  | cons c t ih =>
    rw [List.head?_cons, Option.some.injEq] at h
    subst h
    cases t with
    | nil => simp [dedupRuns]
    | cons b rest =>
      by_cases hab : c = b
      · subst hab
        rw [show dedupRuns (c :: c :: rest) = dedupRuns (c :: rest) by
          simp [dedupRuns]]
        exact ih rfl
      · rw [show dedupRuns (c :: b :: rest) = c :: dedupRuns (b :: rest) by
          simp [dedupRuns, hab]]
        rfl

theorem dedupRuns_length_le {α : Type} [DecidableEq α] (l : List α) :
    (dedupRuns l).length ≤ l.length := by
  induction l with
  | nil => simp [dedupRuns]
  | cons a t ih =>
    cases t with
    | nil => simp [dedupRuns]
    | cons b rest =>
      by_cases hab : a = b
      · subst hab
        rw [show dedupRuns (a :: a :: rest) = dedupRuns (a :: rest) by
          simp [dedupRuns]]
        exact le_trans ih (by simp)
      · rw [show dedupRuns (a :: b :: rest) = a :: dedupRuns (b :: rest) by
          simp [dedupRuns, hab]]
        simpa using ih

theorem dedupRuns_eq_of_length {α : Type} [DecidableEq α] (l : List α)
    (h : (dedupRuns l).length = l.length) : dedupRuns l = l := by
  induction l with
  | nil => simp [dedupRuns]
  | cons a t ih =>
    cases t with
    | nil => simp [dedupRuns]
    | cons b rest =>
      by_cases hab : a = b
      · subst hab
        rw [show dedupRuns (a :: a :: rest) = dedupRuns (a :: rest) by
          simp [dedupRuns]] at h
        have hle := dedupRuns_length_le (a :: rest)
        rw [List.length_cons] at hle
        rw [List.length_cons, List.length_cons] at h
        exfalso
        omega
      · rw [show dedupRuns (a :: b :: rest) = a :: dedupRuns (b :: rest) by
          simp [dedupRuns, hab]] at h ⊢
        simp at h
        rw [ih h]

theorem pairwise_lt_dedupRuns {α : Type} [LinearOrder α] (l : List α)
    (h : l.Pairwise (· ≤ ·)) : (dedupRuns l).Pairwise (· < ·) := by
  induction l with
  | nil => simp [dedupRuns]
  | cons a t ih =>
    cases t with
    | nil => simp [dedupRuns]
    | cons b rest =>
      by_cases hab : a = b
      · subst hab
        rw [show dedupRuns (a :: a :: rest) = dedupRuns (a :: rest) by
          simp [dedupRuns]]
        exact ih h.of_cons
      · rw [show dedupRuns (a :: b :: rest) = a :: dedupRuns (b :: rest) by
          simp [dedupRuns, hab]]
        refine List.pairwise_cons.mpr ⟨?_, ih h.of_cons⟩
        intro x hx
        have hxmem : x ∈ b :: rest := (mem_dedupRuns _ _).mp hx
        have hax : a ≤ x := (List.pairwise_cons.mp h).1 x hxmem
        rcases List.mem_cons.mp hxmem with rfl | hxr
        · exact lt_of_le_of_ne hax hab
        · have hbx : b ≤ x := (List.pairwise_cons.mp h.of_cons).1 x hxr
          have hab' : a < b :=
            lt_of_le_of_ne ((List.pairwise_cons.mp h).1 b (List.mem_cons_self b rest)) hab
          exact lt_of_lt_of_le hab' hbx

theorem sortedKeys_pairwise {α : Type} [LinearOrder α] (xs : List α) :
    (sortedKeys xs).Pairwise (· < ·) :=
  pairwise_lt_dedupRuns _ (List.sorted_insertionSort (· ≤ ·) xs)

theorem sortedKeys_nodup {α : Type} [LinearOrder α] (xs : List α) :
    (sortedKeys xs).Nodup :=
  (sortedKeys_pairwise xs).imp ne_of_lt

theorem mem_sortedKeys {α : Type} [LinearOrder α] (xs : List α) (x : α) :
    x ∈ sortedKeys xs ↔ x ∈ xs :=
  (mem_dedupRuns _ _).trans (List.perm_insertionSort (· ≤ ·) xs).mem_iff

theorem head?_le_of_sorted {α : Type} [LinearOrder α] {l : List α} {a x : α}
    (hs : l.Pairwise (· ≤ ·)) (hh : l.head? = some a) (hx : x ∈ l) : a ≤ x := by
  cases l with
  | nil => cases hx
  | cons c t =>
    have hca : c = a := by simpa using hh
    subst hca
    rcases List.mem_cons.mp hx with h1 | hxt
    · exact le_of_eq h1.symm
    · exact (List.pairwise_cons.mp hs).1 x hxt

theorem le_getLast?_of_sorted {α : Type} [LinearOrder α] {l : List α} {m x : α}
    (hs : l.Pairwise (· ≤ ·)) (hl : l.getLast? = some m) (hx : x ∈ l) : x ≤ m := by
  induction l with
  | nil => cases hx
  | cons c t ih =>
    cases t with
    | nil =>
      have hxc : x = c := by simpa using hx
      have hcm : c = m := by simpa using hl
      exact le_of_eq (hxc.trans hcm)
    | cons d rest =>
      rw [List.getLast?_cons_cons] at hl
      rcases List.mem_cons.mp hx with rfl | hxt
      · have hmmem : m ∈ d :: rest := List.mem_of_mem_getLast? hl
        exact (List.pairwise_cons.mp hs).1 m hmmem
      · exact ih hs.of_cons hl hxt

/-! ### Helper lemmas: quantile edges and bin assignment -/

theorem quantileSorted_zero (v : List ℚ) (den : ℕ) :
    quantileSorted v 0 den = v.getD 0 0 := by
  simp [quantileSorted]

theorem quantileSorted_full (v : List ℚ) (hv : v ≠ []) (den : ℕ) (hden : den ≠ 0) :
    quantileSorted v den den = v.getLast hv := by
  have hlen : 0 < v.length := List.length_pos.mpr hv
  have hdiv : den * (v.length - 1) / den = v.length - 1 :=
    Nat.mul_div_cancel_left _ (Nat.pos_of_ne_zero hden)
  have hmod : den * (v.length - 1) % den = 0 := Nat.mul_mod_right den _
  simp only [quantileSorted, hdiv, hmod, Nat.cast_zero, zero_div, zero_mul, add_zero]
  rw [List.getD_eq_getElem?_getD, List.getElem?_eq_getElem (by omega), Option.getD_some,
    List.getLast_eq_getElem]

theorem head_getD_eq_head (v : List ℚ) (hv : v ≠ []) :
    v.getD 0 0 = v.head hv := by
  rw [List.getD_eq_getElem?_getD,
    List.getElem?_eq_getElem (List.length_pos.mpr hv), Option.getD_some,
    List.getElem_zero (List.length_pos.mpr hv)]

theorem binsToEdges_dropDup_eq (bins : List ℚ) (hb : bins.length ≠ 2) :
    binsToEdges bins .dropDup = .ok (dedupRuns bins) := by
  unfold binsToEdges
  by_cases h : (dedupRuns bins).length < bins.length
  · simp [h, hb]
  · have heq : (dedupRuns bins).length = bins.length :=
      le_antisymm (dedupRuns_length_le bins) (not_lt.mp h)
    have hself := dedupRuns_eq_of_length bins heq
    simp [h, hself]

theorem binsToEdges_dropDup_never_fails (bins : List ℚ) :
    ∃ e, binsToEdges bins .dropDup = .ok e := by
  unfold binsToEdges
  by_cases h : (dedupRuns bins).length < bins.length ∧ bins.length ≠ 2
  · refine ⟨dedupRuns bins, ?_⟩
    simp [h]
  · refine ⟨bins, ?_⟩
    simp [h]

theorem two_le_length_of_two_mem {α : Type} {l : List α} {a b : α}
    (ha : a ∈ l) (hb : b ∈ l) (hab : a ≠ b) : 2 ≤ l.length := by
  cases l with
  | nil => cases ha
  | cons c t =>
    cases t with
    | nil =>
      have h1 : a = c := by simpa using ha
      have h2 : b = c := by simpa using hb
      exact absurd (h1.trans h2.symm) hab
    | cons d r =>
      rw [List.length_cons, List.length_cons]
      omega

/-- Core coverage property of the qcut bin assignment: as soon as the data
contains two distinct values, the deduplicated quantile edges describe at
least one interval and every data value is assigned to exactly one interval
index below `numBins`. -/
theorem assignBin_covers (xs : List ℚ) (x : ℚ) (hx : x ∈ xs)
    {y z : ℚ} (hy : y ∈ xs) (hz : z ∈ xs) (hyz : y ≠ z) :
    2 ≤ (dedupRuns (qcutRawEdges xs)).length ∧
    ∃ b, assignBin (dedupRuns (qcutRawEdges xs)) x = some b ∧
      b < numBins (dedupRuns (qcutRawEdges xs)) := by
  classical
  set s := xs.insertionSort (· ≤ ·) with hs_def
  have hperm := List.perm_insertionSort (α := ℚ) (· ≤ ·) xs
  have hxs : x ∈ s := hperm.mem_iff.mpr hx
  have hys : y ∈ s := hperm.mem_iff.mpr hy
  have hzs : z ∈ s := hperm.mem_iff.mpr hz
  have hsne : s ≠ [] := List.ne_nil_of_mem hxs
  have hsort : s.Pairwise (· ≤ ·) := List.sorted_insertionSort (· ≤ ·) xs
  set m := s.head hsne with hm_def
  set M := s.getLast hsne with hM_def
  have hhead : s.head? = some m := List.head?_eq_head hsne
  have hlast : s.getLast? = some M := List.getLast?_eq_getLast s hsne
  have hq0 : quantileSorted s 0 4 = m := by
    rw [quantileSorted_zero, head_getD_eq_head s hsne]
  have hq4 : quantileSorted s 4 4 = M := quantileSorted_full s hsne 4 (by norm_num)
  have hraw_head : (qcutRawEdges xs).head? = some m := by
    rw [show (qcutRawEdges xs).head? = some (quantileSorted s 0 4) from rfl, hq0]
  set edges := dedupRuns (qcutRawEdges xs) with hedges_def
  have hedge_head : edges.head? = some m := dedupRuns_head? _ _ hraw_head
  have hm_mem : m ∈ edges := List.mem_of_mem_head? hedge_head
  have hM_mem : M ∈ edges := by
    rw [hedges_def, mem_dedupRuns]
    rw [show qcutRawEdges xs =
      [quantileSorted s 0 4, quantileSorted s 1 4, quantileSorted s 2 4,
       quantileSorted s 3 4, quantileSorted s 4 4] from rfl]
    simp [hq4]
  have hlo : ∀ w ∈ s, m ≤ w := fun w hw => head?_le_of_sorted hsort hhead hw
  have hhi : ∀ w ∈ s, w ≤ M := fun w hw => le_getLast?_of_sorted hsort hlast hw
  have hmM : m ≠ M := by
    intro hEq
    apply hyz
    have h1 : y = m := le_antisymm (hEq ▸ hhi y hys) (hlo y hys)
    have h2 : z = m := le_antisymm (hEq ▸ hhi z hzs) (hlo z hzs)
    rw [h1, h2]
  have hlen2 : 2 ≤ edges.length := two_le_length_of_two_mem hm_mem hM_mem hmM
  refine ⟨hlen2, ?_⟩
  by_cases hx_head : edges.head? = some x
  · refine ⟨0, ?_, ?_⟩
    · simp only [assignBin, if_pos hx_head]
      rw [if_neg]
      intro hcase
      rcases hcase with h0 | hL
      · exact absurd h0 one_ne_zero
      · omega
    · simp only [numBins]
      omega
  · have hmx : m < x := by
      rcases lt_or_eq_of_le (hlo x hxs) with h | h
      · exact h
      · exact absurd (h ▸ hedge_head) hx_head
    have hcpos : 0 < edges.countP (fun e => decide (e < x)) :=
      List.countP_pos_iff.mpr ⟨m, hm_mem, by simpa using hmx⟩
    have hcne : edges.countP (fun e => decide (e < x)) ≠ edges.length := by
      intro hEq
      have hall := List.countP_eq_length.mp hEq M hM_mem
      have : M < x := by simpa using hall
      exact absurd (hhi x hxs) (not_le.mpr this)
    have hcle : edges.countP (fun e => decide (e < x)) ≤ edges.length :=
      List.countP_le_length _
    refine ⟨edges.countP (fun e => decide (e < x)) - 1, ?_, ?_⟩
    · simp only [assignBin, searchSortedLeft, if_neg hx_head]
      rw [if_neg]
      intro hcase
      rcases hcase with h0 | hL
      · omega
      · exact hcne hL
    · simp only [numBins]
      omega

/-! ### Helper lemmas: win-rate bounds -/

theorem winVal_nonneg (r : MergedRow) : 0 ≤ winVal r := by
  unfold winVal
  split <;> norm_num

theorem winVal_le_one (r : MergedRow) : winVal r ≤ 1 := by
  unfold winVal
  split <;> norm_num

theorem sum_winVal_nonneg (l : List MergedRow) : 0 ≤ (l.map winVal).sum := by
  refine List.sum_nonneg ?_
  intro x hx
  rcases List.mem_map.mp hx with ⟨r, _, rfl⟩
  exact winVal_nonneg r

theorem sum_winVal_le_length (l : List MergedRow) :
    (l.map winVal).sum ≤ (l.length : ℚ) := by
  have h := List.sum_le_card_nsmul (l.map winVal) 1 ?_
  · simpa [nsmul_eq_mul] using h
  · intro x hx
    rcases List.mem_map.mp hx with ⟨r, _, rfl⟩
    exact winVal_le_one r

theorem groupMean_winVal_bounds (l : List MergedRow) (hl : l ≠ []) :
    0 ≤ groupMean (l.map winVal) ∧ groupMean (l.map winVal) ≤ 1 := by
  have hpos : (0 : ℚ) < ((l.map winVal).length : ℚ) := by
    rw [List.length_map]
    exact_mod_cast List.length_pos.mpr hl
  unfold groupMean
  constructor
  · exact div_nonneg (sum_winVal_nonneg l) hpos.le
  · rw [div_le_one hpos]
    calc (l.map winVal).sum ≤ (l.length : ℚ) := sum_winVal_le_length l
    _ = ((l.map winVal).length : ℚ) := by rw [List.length_map]

/-! ### Helper lemmas: association-list lookup on `map`-built grids -/

theorem lookup_map_of_mem {α β : Type} [BEq α] [LawfulBEq α] (ks : List α)
    (f : α → β) (c : α) (hc : c ∈ ks) :
    (ks.map (fun k => (k, f k))).lookup c = some (f c) := by
  induction ks with
  | nil => cases hc
  | cons k t ih =>
    by_cases h : c = k
    · subst h
      simp [List.lookup]
    · have hct : c ∈ t := by
        rcases List.mem_cons.mp hc with h' | h'
        · exact absurd h' h
        · exact h'
      simp only [List.map_cons, List.lookup, beq_eq_false_iff_ne.mpr h]
      exact ih hct

theorem lookup_map_of_not_mem {α β : Type} [BEq α] [LawfulBEq α] (ks : List α)
    (f : α → β) (c : α) (hc : c ∉ ks) :
    (ks.map (fun k => (k, f k))).lookup c = none := by
  induction ks with
  | nil => rfl
  | cons k t ih =>
    have h : c ≠ k := fun hEq => hc (hEq ▸ List.mem_cons_self k t)
    simp only [List.map_cons, List.lookup, beq_eq_false_iff_ne.mpr h]
    exact ih (fun hEq => hc (List.mem_cons_of_mem _ hEq))

/-! ### Helper lemmas: the pivot base of the heatmap -/

theorem pivotRows_cons_none (r : MergedRow) (t : List MergedRow)
    (hr : r.cluster = none) : pivotRows (r :: t) = pivotRows t := by
  simp [pivotRows, List.filterMap_cons, hr]

theorem pivotRows_cons_some (r : MergedRow) (t : List MergedRow) (c : Int)
    (hr : r.cluster = some c) : pivotRows (r :: t) = (c, r) :: pivotRows t := by
  simp [pivotRows, List.filterMap_cons, hr]

theorem mk_mem_pivotRows {merged : List MergedRow} {r : MergedRow} {c : Int}
    (hr : r ∈ merged) (hc : r.cluster = some c) : (c, r) ∈ pivotRows merged :=
  List.mem_filterMap.mpr ⟨r, hr, by simp [hc]⟩

theorem of_mem_pivotRows {merged : List MergedRow} {p : Int × MergedRow}
    (hp : p ∈ pivotRows merged) : p.2 ∈ merged ∧ p.2.cluster = some p.1 := by
  rcases List.mem_filterMap.mp hp with ⟨r, hrm, hf⟩
  rcases Option.map_eq_some'.mp hf with ⟨c', hc', hpair⟩
  have h2 : p.2 = r := by rw [← hpair]
  have h1 : p.1 = c' := by rw [← hpair]
  subst h2
  rw [h1]
  exact ⟨hrm, hc'⟩

theorem pivotRows_filter_not_null (merged : List MergedRow) :
    pivotRows (merged.filter (fun r => decide (¬ r.cluster = none))) =
      pivotRows merged := by
  induction merged with
  | nil => rfl
  | cons r t ih =>
    cases hr : r.cluster with
    | none =>
      rw [List.filter_cons_of_neg (by simp [hr]), pivotRows_cons_none r t hr]
      exact ih
    | some c' =>
      rw [List.filter_cons_of_pos (by simp [hr]), pivotRows_cons_some _ _ c' hr,
        pivotRows_cons_some r t c' hr, ih]

theorem pivotRows_filter_map_eq (merged : List MergedRow) (c : Int) (s : String) :
    ((pivotRows merged).filter
        (fun p => decide (p.1 = c ∧ p.2.classification = s))).map Prod.snd
      = merged.filter (fun r => decide (r.cluster = some c ∧ r.classification = s)) := by
  induction merged with
  | nil => rfl
  | cons r t ih =>
    cases hr : r.cluster with
    | none =>
      rw [pivotRows_cons_none r t hr, List.filter_cons_of_neg (by simp [hr])]
      exact ih
    | some c' =>
      rw [pivotRows_cons_some r t c' hr]
      by_cases hmatch : c' = c ∧ r.classification = s
      · rw [List.filter_cons_of_pos (by simpa using hmatch), List.map_cons,
          List.filter_cons_of_pos (by simp [hr, hmatch.1, hmatch.2]), ih]
      · rw [List.filter_cons_of_neg (by simpa using hmatch),
          List.filter_cons_of_neg ?_, ih]
        simp only [hr, decide_eq_true_eq, not_and, Option.some.injEq]
        intro h1 h2
        exact hmatch ⟨h1, h2⟩

/-! ### Helper lemmas: unique-key filtering for the left join -/

theorem filter_account_eq_toList (profiles : List ProfileRow) (a : String)
    (h : (profiles.map ProfileRow.account).Nodup) :
    profiles.filter (fun p => decide (p.account = a)) =
      (profiles.find? (fun p => decide (p.account = a))).toList := by
  induction profiles with
  | nil => rfl
  | cons p ps ih =>
    rw [List.map_cons, List.nodup_cons] at h
    by_cases hp : p.account = a
    · rw [List.filter_cons_of_pos (by simpa using hp),
        List.find?_cons_of_pos _ (by simpa using hp)]
      have hnil : ps.filter (fun q => decide (q.account = a)) = [] := by
        rw [List.filter_eq_nil_iff]
        intro q hq
        simp only [decide_eq_true_eq]
        intro hqa
        exact h.1 (List.mem_map.mpr ⟨q, hq, hqa.trans hp.symm⟩)
      rw [hnil]
      rfl
    · rw [List.filter_cons_of_neg (by simpa using hp),
        List.find?_cons_of_neg _ (by simpa using hp)]
      exact ih h.2

/-! ### Helper lemmas: stable top-n selection -/

theorem nlargestPnl_pairwise (n : ℕ) (rows : List ProfileRow) :
    (nlargestPnl n rows).Pairwise (fun a b => b.total_pnl ≤ a.total_pnl) := by
  haveI : IsTotal ProfileRow (fun a b => b.total_pnl ≤ a.total_pnl) :=
    ⟨fun a b => le_total b.total_pnl a.total_pnl⟩
  haveI : IsTrans ProfileRow (fun a b => b.total_pnl ≤ a.total_pnl) :=
    ⟨fun _ _ _ hab hbc => le_trans hbc hab⟩
  have hsorted := List.sorted_insertionSort (α := ProfileRow)
    (fun a b => b.total_pnl ≤ a.total_pnl) rows
  exact List.Pairwise.sublist (List.take_sublist n _) hsorted

theorem mem_nlargestPnl {n : ℕ} {rows : List ProfileRow} {p : ProfileRow}
    (hp : p ∈ nlargestPnl n rows) : p ∈ rows := by
  have hp' : p ∈ (rows.insertionSort (fun a b => b.total_pnl ≤ a.total_pnl)).take n := hp
  exact (List.perm_insertionSort (fun a b => b.total_pnl ≤ a.total_pnl) rows).mem_iff.mp
    (List.take_subset n _ hp')

theorem nlargestPnl_length (n : ℕ) (rows : List ProfileRow) :
    (nlargestPnl n rows).length = min n rows.length := by
  simp [nlargestPnl, List.length_take, List.length_insertionSort]

theorem nlargestPnl_cut (n : ℕ) (rows : List ProfileRow) :
    ∀ p ∈ rows, p ∉ nlargestPnl n rows →
      ∀ q ∈ nlargestPnl n rows, p.total_pnl ≤ q.total_pnl := by
  intro p hp hpn q hq
  haveI : IsTotal ProfileRow (fun a b => b.total_pnl ≤ a.total_pnl) :=
    ⟨fun a b => le_total b.total_pnl a.total_pnl⟩
  haveI : IsTrans ProfileRow (fun a b => b.total_pnl ≤ a.total_pnl) :=
    ⟨fun _ _ _ hab hbc => le_trans hbc hab⟩
  have hsorted := List.sorted_insertionSort (fun a b => b.total_pnl ≤ a.total_pnl) rows
  have hp' : p ∈ rows.insertionSort (fun a b => b.total_pnl ≤ a.total_pnl) :=
    (List.perm_insertionSort _ rows).mem_iff.mpr hp
  have hsplit := List.take_append_drop n
    (rows.insertionSort (fun a b => b.total_pnl ≤ a.total_pnl))
  have hpdrop : p ∈ (rows.insertionSort (fun a b => b.total_pnl ≤ a.total_pnl)).drop n := by
    rcases List.mem_append.mp (by rw [hsplit]; exact hp') with h | h
    · exact absurd h hpn
    · exact h
  have hpw : List.Pairwise (fun a b => b.total_pnl ≤ a.total_pnl)
      ((rows.insertionSort (fun a b => b.total_pnl ≤ a.total_pnl)).take n ++
        (rows.insertionSort (fun a b => b.total_pnl ≤ a.total_pnl)).drop n) := by
    rw [hsplit]
    exact hsorted
  exact (List.pairwise_append.mp hpw).2.2 q hq p hpdrop

/-! ### Helper lemmas: concatenated per-cluster groups -/

theorem flatMap_filter_cluster (ks : List Int) (f : Int → List ProfileRow) (c : Int)
    (hnd : ks.Nodup) (hf : ∀ k ∈ ks, ∀ p ∈ f k, p.cluster = k) (hc : c ∈ ks) :
    (ks.flatMap f).filter (fun p => decide (p.cluster = c)) = f c := by
  induction ks with
  | nil => cases hc
  | cons k t ih =>
    rw [List.flatMap_cons, List.filter_append]
    rcases List.mem_cons.mp hc with hEq | hct
    · subst hEq
      have h1 : (f c).filter (fun p => decide (p.cluster = c)) = f c :=
        List.filter_eq_self.mpr
          (fun a ha => by simpa using hf c (List.mem_cons_self c t) a ha)
      have h2 : (t.flatMap f).filter (fun p => decide (p.cluster = c)) = [] := by
        rw [List.filter_eq_nil_iff]
        intro a ha
        rcases List.mem_flatMap.mp ha with ⟨k', hk', ha'⟩
        have hak : a.cluster = k' := hf k' (List.mem_cons_of_mem _ hk') a ha'
        have hk'c : k' ≠ c := fun hEq => (List.nodup_cons.mp hnd).1 (hEq ▸ hk')
        simp [hak, hk'c]
      rw [h1, h2, List.append_nil]
    · have hkc : k ≠ c := fun hEq => (List.nodup_cons.mp hnd).1 (hEq ▸ hct)
      have h1 : (f k).filter (fun p => decide (p.cluster = c)) = [] := by
        rw [List.filter_eq_nil_iff]
        intro a ha
        have hak : a.cluster = k := hf k (List.mem_cons_self k t) a ha
        simp [hak, hkc]
      rw [h1, List.nil_append]
      exact ih (List.nodup_cons.mp hnd).2
        (fun k' hk' => hf k' (List.mem_cons_of_mem _ hk')) hct

/-! ### Helper lemmas: degenerate inputs of the quantile bucketing -/

theorem qcutRawEdges_nil : qcutRawEdges [] = [0, 0, 0, 0, 0] := by
  norm_num [qcutRawEdges, quantileSorted, List.insertionSort]

theorem size_bin_nil : size_bin [] = [] := by
  unfold size_bin
  cases binsToEdges (qcutRawEdges (List.map MergedRow.size_usd [])) Duplicates.dropDup
  · rfl
  · simp

theorem size_win_nil : size_win [] = [] := by
  unfold size_win
  rw [show List.map MergedRow.size_usd [] = ([] : List ℚ) from rfl, qcutRawEdges_nil]
  rw [show binsToEdges [0, 0, 0, 0, 0] .dropDup = .ok [0] from by
    norm_num [binsToEdges, dedupRuns]]
  simp [numBins]

/-! ### Helper lemma: full evaluation of the schema loader on present files -/

theorem load_data_schema_some_some (t u : RawTable) :
    load_data_schema (some t) (some u) =
      if "account" ∈ u.cols then
        if "cluster" ∈ u.cols then
          if "account" ∈ t.cols then .ok (⟨t.cols ++ ["cluster"]⟩, u)
          else .error .mergeKeyMissing
        else .error (.missingColumn "cluster")
      else .error (.missingColumn "account") := by
  by_cases hau : "account" ∈ u.cols
  · by_cases hcu : "cluster" ∈ u.cols
    · by_cases hat : "account" ∈ t.cols
      · simp [load_data_schema, readCsv, selectColumns, mergeLeftOn, List.find?,
          hau, hcu, hat, Except.bind]
      · simp [load_data_schema, readCsv, selectColumns, mergeLeftOn, List.find?,
          hau, hcu, hat, Except.bind]
    · simp [load_data_schema, readCsv, selectColumns, mergeLeftOn, List.find?,
        hau, hcu, Except.bind]
  · simp [load_data_schema, readCsv, selectColumns, mergeLeftOn, List.find?,
      hau, Except.bind]

/-! ### The claims -/

/-- C1: for every loaded trade table and every sentiment selection `S`, the
filtered-trades view (line 52) consists of exactly the rows of the joined trade
table whose classification is in `S`: it is a sublist of the source rows, every
returned row's classification lies in `S`, and the cluster selection `C` has no
effect on this view. -/
theorem c1_filtered_trades_sentiment_only (src : Sources) (S : List String)
    (C C' : List Int) :
    ((computeViews src S C).1.filtered_merged).Sublist src.merged
    ∧ (∀ r ∈ (computeViews src S C).1.filtered_merged, r.classification ∈ S)
    ∧ (computeViews src S C).1.filtered_merged
        = (computeViews src S C').1.filtered_merged
    ∧ (computeViews src S C).1.filtered_merged = filtered_merged src.merged S := by
  refine ⟨List.filter_sublist _, ?_, rfl, rfl⟩
  intro r hr
  have hr' : r ∈ src.merged.filter (fun x => decide (x.classification ∈ S)) := hr
  simpa using (List.mem_filter.mp hr').2

/-- Witness for C1 at the example data: sentiment selection `["Fear"]`,
cluster selections `[0]` and `[]`. -/
theorem c1_witness :
    ((computeViews exSrc ["Fear"] [0]).1.filtered_merged).Sublist exSrc.merged
    ∧ (∀ r ∈ (computeViews exSrc ["Fear"] [0]).1.filtered_merged,
        r.classification ∈ ["Fear"])
    ∧ (computeViews exSrc ["Fear"] [0]).1.filtered_merged
        = (computeViews exSrc ["Fear"] []).1.filtered_merged
    ∧ (computeViews exSrc ["Fear"] [0]).1.filtered_merged
        = filtered_merged exSrc.merged ["Fear"] :=
  c1_filtered_trades_sentiment_only exSrc ["Fear"] [0] []

/-- C9: a full recomputation of all views is a pure function of the source
tables and the filter selections; the source tables it threads through come
back exactly as they went in — every filtering, grouping, binning and pivoting
step builds a new derived view (the one in-place column write of line 116
targets the filtered copy produced by line 52). -/
theorem c9_sources_unchanged (src : Sources) (S : List String) (C : List Int) :
    (computeViews src S C).2 = src
    ∧ (computeViews src S C).2.merged = src.merged
    ∧ (computeViews src S C).2.trader_features = src.trader_features :=
  ⟨rfl, rfl, rfl⟩

/-- C3: the overall win-rate KPI (line 63) equals the mean of `win` over the
filtered trades times 100; it is NaN exactly when the filtered view is empty
(never reported as zero there), and lies in `[0, 100]` whenever a value is
produced. -/
theorem c3_overall_win_rate_spec (src : Sources) (S : List String) (C : List Int) :
    ((computeViews src S C).1.overall_win_rate
        = overall_win_rate (filtered_merged src.merged S))
    ∧ (overall_win_rate (filtered_merged src.merged S) = none
        ↔ filtered_merged src.merged S = [])
    ∧ ∀ v, overall_win_rate (filtered_merged src.merged S) = some v →
        v = groupMean ((filtered_merged src.merged S).map winVal) * 100
        ∧ 0 ≤ v ∧ v ≤ 100 := by
  refine ⟨rfl, ?_, ?_⟩
  · unfold overall_win_rate seriesMean
    by_cases h : filtered_merged src.merged S = []
    · simp [h]
    · simp [h, List.isEmpty_iff]
  · intro v hv
    unfold overall_win_rate seriesMean at hv
    by_cases h : filtered_merged src.merged S = []
    · rw [h] at hv
      simp at hv
    · have hne : ((filtered_merged src.merged S).map winVal).isEmpty = false := by
        simp [List.isEmpty_iff, h]
      rw [hne] at hv
      simp only [Bool.false_eq_true, if_false, Option.map_some', Option.some.injEq] at hv
      rcases groupMean_winVal_bounds _ h with ⟨h0, h1⟩
      refine ⟨hv.symm, ?_, ?_⟩
      · rw [← hv]
        exact mul_nonneg h0 (by norm_num)
      · rw [← hv]
        have := mul_le_mul_of_nonneg_right h1 (by norm_num : (0:ℚ) ≤ 100)
        simpa using this

/-- Witness for C3 at the example data with sentiment selection `["Fear"]`. -/
theorem c3_witness :
    ((computeViews exSrc ["Fear"] []).1.overall_win_rate
        = overall_win_rate (filtered_merged exSrc.merged ["Fear"]))
    ∧ (overall_win_rate (filtered_merged exSrc.merged ["Fear"]) = none
        ↔ filtered_merged exSrc.merged ["Fear"] = [])
    ∧ ∀ v, overall_win_rate (filtered_merged exSrc.merged ["Fear"]) = some v →
        v = groupMean ((filtered_merged exSrc.merged ["Fear"]).map winVal) * 100
        ∧ 0 ≤ v ∧ v ≤ 100 :=
  c3_overall_win_rate_spec exSrc ["Fear"] []

/-- C4: when the filter selections leave the filtered views empty (in
particular for the empty sentiment and cluster selections), every aggregation
view degrades to an empty or NaN result — the KPIs, the grouped win rates, the
quantile bucketing and the cluster summary — and the `duplicates='drop'`
edge-deduplication of the quantile bucketing never fails on any input, however
few distinct boundaries exist.  All view functions are total, so no exception
is possible in this model. -/
theorem c4_empty_selection_degrades (src : Sources) (S : List String)
    (C : List Int) (hS : filtered_merged src.merged S = [])
    (hC : filtered_clusters src.trader_features C = []) :
    total_trades (filtered_merged src.merged S) = 0
    ∧ total_pnl (filtered_merged src.merged S) = 0
    ∧ overall_win_rate (filtered_merged src.merged S) = none
    ∧ win_rate (filtered_merged src.merged S) = []
    ∧ side_win (filtered_merged src.merged S) = []
    ∧ size_bin (filtered_merged src.merged S) = []
    ∧ size_win (filtered_merged src.merged S) = []
    ∧ cluster_summary (filtered_clusters src.trader_features C) = []
    ∧ ∀ bins : List ℚ, ∃ e, binsToEdges bins .dropDup = .ok e := by
  rw [hS, hC]
  exact ⟨rfl, rfl, rfl, rfl, rfl, size_bin_nil, size_win_nil, rfl,
    binsToEdges_dropDup_never_fails⟩

/-- Witness for C4: the empty sentiment and cluster selections on the example
data leave all views empty/NaN. -/
theorem c4_witness :
    total_trades (filtered_merged exSrc.merged []) = 0
    ∧ total_pnl (filtered_merged exSrc.merged []) = 0
    ∧ overall_win_rate (filtered_merged exSrc.merged []) = none
    ∧ win_rate (filtered_merged exSrc.merged []) = []
    ∧ side_win (filtered_merged exSrc.merged []) = []
    ∧ size_bin (filtered_merged exSrc.merged []) = []
    ∧ size_win (filtered_merged exSrc.merged []) = []
    ∧ cluster_summary (filtered_clusters exSrc.trader_features []) = []
    ∧ ∀ bins : List ℚ, ∃ e, binsToEdges bins .dropDup = .ok e :=
  c4_empty_selection_degrades exSrc [] [] (by simp [filtered_merged])
    (by simp [filtered_clusters])

/-- C2 counterexample: a trade CSV that has every required column except
`classification` (together with a complete profile CSV) is loaded successfully
by `load_data` — contrary to the claim, absence of a required non-join column
is not detected at the loader boundary. -/
theorem c2_counterexample :
    "classification" ∉ noClassTable.cols
    ∧ ∃ r, load_data_schema (some noClassTable) (some fullProfileTable) = .ok r := by
  constructor
  · simp [noClassTable]
  · refine ⟨(⟨noClassTable.cols ++ ["cluster"]⟩, fullProfileTable), ?_⟩
    rw [load_data_schema_some_some]
    simp [noClassTable, fullProfileTable]

/-- C2 amended: `load_data` fails exactly when a source file is missing or
unreadable, or when a column that the join itself touches is absent —
`account` in either table, or `cluster` in the profile table.  Absence of the
other required columns (`classification`, `closed_pnl`, `win`, `size_usd`) is
not detected by the loader. -/
theorem c2_loader_error_conditions :
    (∀ p, ∃ e, load_data_schema none p = .error e)
    ∧ (∀ t, ∃ e, load_data_schema (some t) none = .error e)
    ∧ ∀ t u : RawTable,
        (∃ r, load_data_schema (some t) (some u) = .ok r)
          ↔ ("account" ∈ u.cols ∧ "cluster" ∈ u.cols ∧ "account" ∈ t.cols) := by
  refine ⟨?_, ?_, ?_⟩
  · intro p
    exact ⟨.fileMissing "final_merged_dataset.csv", rfl⟩
  · intro t
    exact ⟨.fileMissing "trader_clusters.csv", rfl⟩
  · intro t u
    rw [load_data_schema_some_some]
    by_cases hau : "account" ∈ u.cols
    · by_cases hcu : "cluster" ∈ u.cols
      · by_cases hat : "account" ∈ t.cols
        · simp [hau, hcu, hat]
        · simp [hau, hcu, hat]
      · simp [hau, hcu]
    · simp [hau]

/-- Witness for the amended C2: complete schemas load successfully. -/
theorem c2_witness :
    ∃ r, load_data_schema (some ⟨["account", "side", "size_usd", "closed_pnl",
      "win", "classification"]⟩) (some fullProfileTable) = .ok r :=
  (c2_loader_error_conditions.2.2 ⟨["account", "side", "size_usd", "closed_pnl",
    "win", "classification"]⟩ fullProfileTable).mpr
    (by simp [fullProfileTable])

/-- C8: after the left join on `account` with a profile table whose accounts
are unique, the joined table has exactly one row per trade in order; a trade
whose account has a profile carries that profile's cluster, and a trade whose
account has no profile is kept with a null cluster. -/
theorem c8_left_join_semantics (trades : List TradeRow) (profiles : List ProfileRow)
    (hnd : (profiles.map ProfileRow.account).Nodup) :
    leftMergeCluster trades profiles
        = trades.map (fun t => mkMerged t
            ((profiles.find? (fun p => decide (p.account = t.account))).map
              ProfileRow.cluster))
    ∧ (leftMergeCluster trades profiles).length = trades.length
    ∧ (∀ t ∈ trades, ∀ p ∈ profiles, p.account = t.account →
        mkMerged t (some p.cluster) ∈ leftMergeCluster trades profiles)
    ∧ (∀ t ∈ trades, (∀ p ∈ profiles, p.account ≠ t.account) →
        mkMerged t none ∈ leftMergeCluster trades profiles) := by
  have hkey : ∀ t : TradeRow,
      (match profiles.filter (fun p => decide (p.account = t.account)) with
        | [] => [mkMerged t none]
        | ms => ms.map (fun p => mkMerged t (some p.cluster)))
      = [mkMerged t ((profiles.find? (fun p => decide (p.account = t.account))).map
          ProfileRow.cluster)] := by
    intro t
    rw [filter_account_eq_toList profiles t.account hnd]
    cases hf : profiles.find? (fun p => decide (p.account = t.account)) with
    | none => simp
    | some p => simp
  have hmain : leftMergeCluster trades profiles
      = trades.map (fun t => mkMerged t
          ((profiles.find? (fun p => decide (p.account = t.account))).map
            ProfileRow.cluster)) := by
    induction trades with
    | nil => rfl
    | cons t ts ih =>
      rw [show leftMergeCluster (t :: ts) profiles
          = (match profiles.filter (fun p => decide (p.account = t.account)) with
              | [] => [mkMerged t none]
              | ms => ms.map (fun p => mkMerged t (some p.cluster)))
            ++ leftMergeCluster ts profiles from by
        simp [leftMergeCluster, List.flatMap_cons]]
      rw [hkey t, ih, List.map_cons, List.singleton_append]
  refine ⟨hmain, by rw [hmain, List.length_map], ?_, ?_⟩
  · intro t ht p hp hpa
    have hpf : p ∈ profiles.filter (fun q => decide (q.account = t.account)) :=
      List.mem_filter.mpr ⟨hp, by simpa using hpa⟩
    rw [filter_account_eq_toList profiles t.account hnd] at hpf
    have hf : profiles.find? (fun q => decide (q.account = t.account)) = some p :=
      Option.mem_toList.mp hpf
    rw [hmain]
    refine List.mem_map.mpr ⟨t, ht, ?_⟩
    rw [hf]
    rfl
  · intro t ht hno
    have hf : profiles.find? (fun q => decide (q.account = t.account)) = none :=
      List.find?_eq_none.mpr (fun q hq => by simpa using hno q hq)
    rw [hmain]
    refine List.mem_map.mpr ⟨t, ht, ?_⟩
    rw [hf]
    rfl

/-- Witness for C8 at the example tables (accounts A, B are unique). -/
theorem c8_witness :
    leftMergeCluster exTrades exProfiles
        = exTrades.map (fun t => mkMerged t
            ((exProfiles.find? (fun p => decide (p.account = t.account))).map
              ProfileRow.cluster))
    ∧ (leftMergeCluster exTrades exProfiles).length = exTrades.length
    ∧ (∀ t ∈ exTrades, ∀ p ∈ exProfiles, p.account = t.account →
        mkMerged t (some p.cluster) ∈ leftMergeCluster exTrades exProfiles)
    ∧ (∀ t ∈ exTrades, (∀ p ∈ exProfiles, p.account ≠ t.account) →
        mkMerged t none ∈ leftMergeCluster exTrades exProfiles) :=
  c8_left_join_semantics exTrades exProfiles (by simp [exProfiles, pA, pB])

/-- C6: for every cluster present in the full, unfiltered profile table, the
top-traders view (line 161) contains for that cluster exactly the stable
descending top-5 selection `nlargest(5, 'total_pnl')` of that cluster's rows:
those rows sorted by descending `total_pnl` (ties in original row order),
at most 5 of them (fewer when the cluster is smaller), every omitted row of
the cluster ranking no higher than any kept one; the sentiment and cluster
filter selections have no effect on the view. -/
theorem c6_top_traders_per_cluster (src : Sources) (S : List String)
    (C : List Int) (c : Int)
    (hc : c ∈ sortedKeys (src.trader_features.map ProfileRow.cluster)) :
    ((computeViews src S C).1.top_traders = top_traders src.trader_features)
    ∧ ((top_traders src.trader_features).filter (fun p => decide (p.cluster = c))
        = nlargestPnl 5 (src.trader_features.filter (fun p => decide (p.cluster = c))))
    ∧ (nlargestPnl 5 (src.trader_features.filter
        (fun p => decide (p.cluster = c)))).Pairwise
        (fun a b => b.total_pnl ≤ a.total_pnl)
    ∧ (nlargestPnl 5 (src.trader_features.filter
        (fun p => decide (p.cluster = c)))).length
        = min 5 (src.trader_features.filter (fun p => decide (p.cluster = c))).length
    ∧ ∀ p ∈ src.trader_features.filter (fun p => decide (p.cluster = c)),
        p ∉ nlargestPnl 5 (src.trader_features.filter (fun p => decide (p.cluster = c))) →
        ∀ q ∈ nlargestPnl 5 (src.trader_features.filter (fun p => decide (p.cluster = c))),
          p.total_pnl ≤ q.total_pnl := by
  refine ⟨rfl, ?_, nlargestPnl_pairwise 5 _, nlargestPnl_length 5 _,
    nlargestPnl_cut 5 _⟩
  unfold top_traders
  refine flatMap_filter_cluster _ _ c (sortedKeys_nodup _) ?_ hc
  intro k hk p hp
  have hp' := mem_nlargestPnl hp
  simpa using (List.mem_filter.mp hp').2

/-- Witness for C6 at the example profile table, cluster 0. -/
theorem c6_witness :
    ((computeViews exSrc ["Fear"] []).1.top_traders = top_traders exSrc.trader_features)
    ∧ ((top_traders exSrc.trader_features).filter (fun p => decide (p.cluster = 0))
        = nlargestPnl 5 (exSrc.trader_features.filter (fun p => decide (p.cluster = 0))))
    ∧ (nlargestPnl 5 (exSrc.trader_features.filter
        (fun p => decide (p.cluster = 0)))).Pairwise
        (fun a b => b.total_pnl ≤ a.total_pnl)
    ∧ (nlargestPnl 5 (exSrc.trader_features.filter
        (fun p => decide (p.cluster = 0)))).length
        = min 5 (exSrc.trader_features.filter (fun p => decide (p.cluster = 0))).length
    ∧ ∀ p ∈ exSrc.trader_features.filter (fun p => decide (p.cluster = 0)),
        p ∉ nlargestPnl 5 (exSrc.trader_features.filter (fun p => decide (p.cluster = 0))) →
        ∀ q ∈ nlargestPnl 5 (exSrc.trader_features.filter (fun p => decide (p.cluster = 0))),
          p.total_pnl ≤ q.total_pnl :=
  c6_top_traders_per_cluster exSrc ["Fear"] [] 0
    (by simp [exSrc, exProfiles, pA, pB, sortedKeys, dedupRuns,
      List.insertionSort, List.orderedInsert])

/-- C10: a trade row whose account has no profile (null cluster after the left
join) contributes to no pivot row of the heatmap — the pivot drops rows with an
undefined row-index key, so the heatmap is unchanged if such rows are removed
from the joined table first — even though the row is kept in the joined table
and, when its classification is selected, still appears in the filtered
trade-level views. -/
theorem c10_null_cluster_excluded (src : Sources) (S : List String)
    (t : MergedRow) (ht : t ∈ src.merged) (hnull : t.cluster = none) :
    heatmap_data src.merged
        = heatmap_data (src.merged.filter (fun r => decide (¬ r.cluster = none)))
    ∧ (∀ p ∈ pivotRows src.merged, p.2.cluster ≠ none)
    ∧ (∀ p ∈ pivotRows src.merged, p.2 ≠ t)
    ∧ (t.classification ∈ S → t ∈ filtered_merged src.merged S) := by
  refine ⟨?_, ?_, ?_, ?_⟩
  · unfold heatmap_data
    rw [pivotRows_filter_not_null]
  · intro p hp
    rcases of_mem_pivotRows hp with ⟨_, hcl⟩
    simp [hcl]
  · intro p hp hEq
    have hcl := (of_mem_pivotRows hp).2
    rw [hEq, hnull] at hcl
    cases hcl
  · intro hS
    exact List.mem_filter.mpr ⟨ht, by simpa using hS⟩

/-- Witness for C10: the unmatched trade `mC` (null cluster) in the extended
example table. -/
theorem c10_witness :
    heatmap_data exSrcNull.merged
        = heatmap_data (exSrcNull.merged.filter (fun r => decide (¬ r.cluster = none)))
    ∧ (∀ p ∈ pivotRows exSrcNull.merged, p.2.cluster ≠ none)
    ∧ (∀ p ∈ pivotRows exSrcNull.merged, p.2 ≠ mC)
    ∧ (mC.classification ∈ ["Fear"] → mC ∈ filtered_merged exSrcNull.merged ["Fear"]) :=
  c10_null_cluster_excluded exSrcNull ["Fear"] mC (by simp [exSrcNull]) rfl

/-- C7: every heatmap cell (lines 168-170) is computed from the full,
unfiltered joined table, independently of both filter selections: for a
(cluster, classification) pair with at least one observation the cell equals
the mean of `win` over exactly those unfiltered joined rows, times 100, and
for a pair with no observations the cell is undefined (`none`), never 0. -/
theorem c7_heatmap_cell_spec (src : Sources) (S : List String) (C : List Int)
    (c : Int) (s : String) :
    ((computeViews src S C).1.heatmap_data = heatmap_data src.merged)
    ∧ (src.merged.filter (fun r => decide (r.cluster = some c ∧ r.classification = s)) = []
        → heatmapCell src.merged c s = none)
    ∧ (src.merged.filter (fun r => decide (r.cluster = some c ∧ r.classification = s)) ≠ []
        → heatmapCell src.merged c s
          = some (groupMean ((src.merged.filter
              (fun r => decide (r.cluster = some c ∧ r.classification = s))).map
                winVal) * 100)) := by
  have hfilter := pivotRows_filter_map_eq src.merged c s
  have hcell : heatmapCellValue (pivotRows src.merged) c s
      = (seriesMean ((src.merged.filter
          (fun r => decide (r.cluster = some c ∧ r.classification = s))).map
            winVal)).map (· * 100) := by
    unfold heatmapCellValue
    rw [hfilter]
  refine ⟨rfl, ?_, ?_⟩
  · intro hg
    unfold heatmapCell heatmap_data heatmapOfBase
    by_cases hc_mem : c ∈ sortedKeys ((pivotRows src.merged).map Prod.fst)
    · rw [lookup_map_of_mem _ _ c hc_mem]
      by_cases hs_mem : s ∈ sortedKeys ((pivotRows src.merged).map
          (fun p => p.2.classification))
      · rw [Option.some_bind, lookup_map_of_mem _ _ s hs_mem, hcell, hg]
        rfl
      · rw [Option.some_bind, lookup_map_of_not_mem _ _ s hs_mem]
        rfl
    · rw [lookup_map_of_not_mem _ _ c hc_mem]
      rfl
  · intro hg
    rcases List.exists_mem_of_ne_nil _ hg with ⟨r, hr⟩
    have hr' := List.mem_filter.mp hr
    have hrprops : r.cluster = some c ∧ r.classification = s := by
      simpa using hr'.2
    have hbase : (c, r) ∈ pivotRows src.merged :=
      mk_mem_pivotRows hr'.1 hrprops.1
    have hc_mem : c ∈ sortedKeys ((pivotRows src.merged).map Prod.fst) :=
      (mem_sortedKeys _ _).mpr (List.mem_map.mpr ⟨(c, r), hbase, rfl⟩)
    have hs_mem : s ∈ sortedKeys ((pivotRows src.merged).map
        (fun p => p.2.classification)) :=
      (mem_sortedKeys _ _).mpr
        (List.mem_map.mpr ⟨(c, r), hbase, hrprops.2⟩)
    unfold heatmapCell heatmap_data heatmapOfBase
    rw [lookup_map_of_mem _ _ c hc_mem, Option.some_bind,
      lookup_map_of_mem _ _ s hs_mem, hcell]
    have hne : ((src.merged.filter
        (fun r => decide (r.cluster = some c ∧ r.classification = s))).map
          winVal).isEmpty = false := by
      cases hfl : src.merged.filter
          (fun r => decide (r.cluster = some c ∧ r.classification = s)) with
      | nil => exact absurd hfl hg
      | cons a l => rfl
    unfold seriesMean
    rw [hne]
    simp

/-- Witness for C7 at the example data, cell (cluster 0, "Fear"). -/
theorem c7_witness :
    ((computeViews exSrc ["Greed"] [1]).1.heatmap_data = heatmap_data exSrc.merged)
    ∧ (exSrc.merged.filter (fun r => decide (r.cluster = some 0 ∧ r.classification = "Fear")) = []
        → heatmapCell exSrc.merged 0 "Fear" = none)
    ∧ (exSrc.merged.filter (fun r => decide (r.cluster = some 0 ∧ r.classification = "Fear")) ≠ []
        → heatmapCell exSrc.merged 0 "Fear"
          = some (groupMean ((exSrc.merged.filter
              (fun r => decide (r.cluster = some 0 ∧ r.classification = "Fear"))).map
                winVal) * 100)) :=
  c7_heatmap_cell_spec exSrc ["Greed"] [1] 0 "Fear"

/-- C5 counterexample: on four trades that all have the same `size_usd`, the
five quantile edges collapse to a single edge, so there are zero bins and
every row is assigned NaN instead of a bin — the bins do not cover a non-empty
input, refuting the claimed exhaustive partition. -/
theorem c5_counterexample :
    eqRows ≠ [] ∧ (size_bin eqRows).map Prod.snd = [none, none, none, none] := by
  constructor
  · simp [eqRows]
  · norm_num [size_bin, eqRows, eqRow, qcutRawEdges, binsToEdges, dedupRuns,
      quantileSorted, assignBin, searchSortedLeft, numBins, List.insertionSort,
      List.orderedInsert]

/-- C5 amended: the quartile bucketing drops duplicate quantile edges rather
than failing, and *whenever the filtered trades contain at least two distinct
`size_usd` values* the surviving edges describe at least one interval and the
bins cover the filtered rows exhaustively and disjointly — each row is
assigned exactly one bin index below the bin count.  (When all sizes are
equal, the edges collapse to a single edge and every row is left unbinned, as
the counterexample shows.) -/
theorem c5_qcut_partition (fm : List MergedRow) (r1 r2 : MergedRow)
    (h1 : r1 ∈ fm) (h2 : r2 ∈ fm) (hne : r1.size_usd ≠ r2.size_usd) :
    ∃ edges,
      binsToEdges (qcutRawEdges (fm.map MergedRow.size_usd)) .dropDup = .ok edges
      ∧ 2 ≤ edges.length
      ∧ size_bin fm = fm.map (fun r => (r, assignBin edges r.size_usd))
      ∧ ∀ r ∈ fm, ∃ b, assignBin edges r.size_usd = some b ∧ b < numBins edges := by
  have hlen5 : (qcutRawEdges (fm.map MergedRow.size_usd)).length ≠ 2 := by
    simp [qcutRawEdges]
  have hok := binsToEdges_dropDup_eq (qcutRawEdges (fm.map MergedRow.size_usd)) hlen5
  have hm1 : r1.size_usd ∈ fm.map MergedRow.size_usd :=
    List.mem_map_of_mem _ h1
  have hm2 : r2.size_usd ∈ fm.map MergedRow.size_usd :=
    List.mem_map_of_mem _ h2
  refine ⟨dedupRuns (qcutRawEdges (fm.map MergedRow.size_usd)), hok, ?_, ?_, ?_⟩
  · exact (assignBin_covers _ r1.size_usd hm1 hm1 hm2 hne).1
  · unfold size_bin
    rw [hok]
  · intro r hr
    exact (assignBin_covers _ r.size_usd (List.mem_map_of_mem _ hr) hm1 hm2 hne).2

/-- Witness for the amended C5 at the example data (sizes 50 and 80 are
distinct). -/
theorem c5_witness :
    ∃ edges,
      binsToEdges (qcutRawEdges (exMerged.map MergedRow.size_usd)) .dropDup = .ok edges
      ∧ 2 ≤ edges.length
      ∧ size_bin exMerged = exMerged.map (fun r => (r, assignBin edges r.size_usd))
      ∧ ∀ r ∈ exMerged, ∃ b, assignBin edges r.size_usd = some b ∧ b < numBins edges :=
  c5_qcut_partition exMerged mA mB (by simp [exMerged]) (by simp [exMerged])
    (by norm_num [mA, mB])

end TradeDashboard
